import Mathlib

/-!
Verification development for the finalization layer of the unit-e node.

Part A embeds the commits synchronization protocol of
src/finalization/p2p.cpp: the serving side (FindMostRecentStart, FindStop,
FindHeaderAndCommits, ProcessGetCommits) and the receiving side
(ProcessNewCommits).  External collaborators (the block index map, the
active chain, the finalization rule engine and header acceptance) are
represented by explicit data carried in a NodeView or an AcceptEnv, exactly
at the interface the C++ code consumes.

Part B models the finalization StateRepository and StateProcessor.  Their
implementation files are not part of the sources at hand (only the unit
test src/test/finalization/state_processor_tests.cpp is), so those
definitions are modelled from the specification text and are pinned, step
by step, to the behavior the test file requires.
-/

namespace UnitE

/-- A transaction, reduced to the one bit the protocol code inspects:
CTransaction::IsFinalizationTransaction. -/
structure Tx where
  isCommit : Bool
deriving DecidableEq

/-- A block header, reduced to its identity (GetHash) and its height. -/
structure Header where
  hash : Nat
  height : Nat
deriving DecidableEq

/-- A CBlockIndex entry: hash identity, height, the optional cached commit
transactions, the BLOCK_HAVE_DATA bit of nStatus, and the transactions of
the full block as readable from disk (none when ReadBlockFromDisk would
fail). -/
structure BlockIdx where
  hash : Nat
  height : Nat
  commits : Option (List Tx)
  have_data : Bool
  disk : Option (List Tx)
deriving DecidableEq

/-- CBlockIndex::GetBlockHeader, reduced to the fields the model keeps. -/
def getBlockHeader (b : BlockIdx) : Header :=
  ⟨b.hash, b.height⟩

/-- The pair a CommitsResponse carries per block: finalization::p2p::HeaderAndCommits. -/
structure HeaderAndCommits where
  header : Header
  commits : List Tx
deriving DecidableEq

/-- CommitsResponse::Status. -/
inductive Status where
  | TipReached
  | StopOrFinReached
  | LengthExceeded
deriving DecidableEq

/-- finalization::p2p::CommitsLocator; a stop value of 0 models the null
uint256 (CommitsLocator.stop.IsNull()). -/
structure CommitsLocator where
  start : List Nat
  stop : Nat
deriving DecidableEq

/-- The local node as the serving side reads it: chainActive (position i of
the list is the block at height i), mapBlockIndex, and the set of heights
for which esperanza::FinalizationState::IsFinalizedCheckpoint holds. -/
structure NodeView where
  chain : List BlockIdx
  blocks : List BlockIdx
  finalized : List Nat

/-- mapBlockIndex.find. -/
def lookupBlock (v : NodeView) (h : Nat) : Option BlockIdx :=
  v.blocks.find? (fun b => decide (b.hash = h))

/-- FinalizationState::IsFinalizedCheckpoint on the view. -/
def IsFinalizedCheckpoint (v : NodeView) (h : Nat) : Prop :=
  h ∈ v.finalized

instance (v : NodeView) (h : Nat) : Decidable (IsFinalizedCheckpoint v h) := by
  unfold IsFinalizedCheckpoint; infer_instance

/-- CChain::Contains: chain[index.height] is this very entry. -/
def chainContains (chain : List BlockIdx) (b : BlockIdx) : Prop :=
  chain.get? b.height = some b

instance (chain : List BlockIdx) (b : BlockIdx) : Decidable (chainContains chain b) := by
  unfold chainContains; infer_instance

/-- CChain::Next: the entry one height above, when the argument is on the
chain. -/
def chainNext (chain : List BlockIdx) (b : BlockIdx) : Option BlockIdx :=
  if chainContains chain b then chain.get? (b.height + 1) else none

/-- A computation that either produces a value or halts the node on a failed
assertion. -/
inductive Halting (α : Type) where
  | halted : Halting α
  | value : α → Halting α
deriving DecidableEq

/-- The loop body of FindMostRecentStart: walks locator.start keeping the
most recent acceptable entry in last.  The first resolvable hash must be a
finalized checkpoint (else the function returns null, i.e. value none) and
is asserted to lie on the active chain (else the node halts); every later
hash must be strictly higher and on the chain, and the scan breaks at the
first entry violating that. -/
def FindMostRecentStartAux (v : NodeView) :
    List Nat → Option BlockIdx → Halting (Option BlockIdx)
  | [], last => .value last
  | h :: rest, last =>
    match lookupBlock v h with
    | none => .value last
    | some pindex =>
      match last with
      | none =>
        if IsFinalizedCheckpoint v pindex.height then
          if chainContains v.chain pindex then
            FindMostRecentStartAux v rest (some pindex)
          else
            .halted
        else
          .value none
      | some l =>
        if pindex.height > l.height ∧ chainContains v.chain pindex then
          FindMostRecentStartAux v rest (some pindex)
        else
          .value (some l)

/-- finalization::p2p::FindMostRecentStart. -/
def FindMostRecentStart (v : NodeView) (locator : CommitsLocator) :
    Halting (Option BlockIdx) :=
  FindMostRecentStartAux v locator.start none

/-- finalization::p2p::FindStop: null stop or an unknown hash fall back to
no stop. -/
def FindStop (v : NodeView) (locator : CommitsLocator) : Option BlockIdx :=
  if locator.stop = 0 then none
  else lookupBlock v locator.stop

/-- finalization::p2p::FindHeaderAndCommits: cached commits are returned as
they are; otherwise the full block must be present (BLOCK_HAVE_DATA) and
readable from disk, else the node halts on an assertion; the commits are
the finalization transactions filtered out of the block. -/
def FindHeaderAndCommits (b : BlockIdx) : Halting HeaderAndCommits :=
  match b.commits with
  | some cs => .value ⟨getBlockHeader b, cs⟩
  | none =>
    if b.have_data = false then
      .halted
    else
      match b.disk with
      | none => .halted
      | some txs => .value ⟨getBlockHeader b, txs.filter (fun t => t.isCommit)⟩

/-- The do-while walk of ProcessGetCommits: advance to the next active-chain
block, stop with TipReached when there is none, append its header and
commits, and continue while the appended block is neither the stop entry
nor a finalized checkpoint.  The response status starts at
StopOrFinReached, the declared default of CommitsResponse, so the exit
through the loop condition keeps it.  The fuel argument only bounds the
recursion; ProcessGetCommits passes one more than the chain length, which
the walk can never consume. -/
def GetCommitsWalk (v : NodeView) (stop : Option BlockIdx) :
    Nat → BlockIdx → List HeaderAndCommits → Halting (List HeaderAndCommits × Status)
  | 0, _, acc => .value (acc, .StopOrFinReached)
  | fuel + 1, p, acc =>
    match chainNext v.chain p with
    | none => .value (acc, .TipReached)
    | some q =>
      match FindHeaderAndCommits q with
      | .halted => .halted
      | .value hc =>
        if stop = some q ∨ IsFinalizedCheckpoint v q.height then
          .value (acc ++ [hc], .StopOrFinReached)
        else
          GetCommitsWalk v stop fuel q (acc ++ [hc])

/-- finalization::p2p::ProcessGetCommits: value none models the early return
false (error logged, no COMMITS message pushed); value (some r) models a
pushed response. -/
def ProcessGetCommits (v : NodeView) (locator : CommitsLocator) :
    Halting (Option (List HeaderAndCommits × Status)) :=
  match FindMostRecentStart v locator with
  | .halted => .halted
  | .value none => .value none
  | .value (some pindex) =>
    match GetCommitsWalk v (FindStop v locator) (v.chain.length + 1) pindex [] with
    | .halted => .halted
    | .value r => .value (some r)

/-- Modelled from the spec: the external interfaces the receiving side calls
into, AcceptBlockHeader (whether it succeeds for a header) and the
BLOCK_VALID_TREE test on the resulting index entry (whether the entry is on
a valid header chain), keyed by the header hash. -/
structure AcceptEnv where
  accept_ok : Nat → Bool
  valid_tree : Nat → Bool

/-- The receiving-side state the code mutates: the hashes accepted into the
block index, and the commits attached per index entry. -/
structure RecvState where
  accepted : List Nat
  attached : List (Nat × List Tx)
deriving DecidableEq

/-- Modelled from the spec: a successful AcceptBlockHeader installs the
header into the block index. -/
def AcceptHeaderIndex (st : RecvState) (hd : Header) : RecvState :=
  { st with accepted := st.accepted ++ [hd.hash] }

/-- CBlockIndex::ResetCommits: attach the commits to the index entry,
replacing any previously attached commits for that entry. -/
def ResetCommits (st : RecvState) (h : Nat) (cs : List Tx) : RecvState :=
  { st with attached := (h, cs) :: st.attached.filter (fun e => decide (e.1 ≠ h)) }

/-- The first batch-validation loop of the receiving ProcessNewCommits: the
hash of the first header one of whose attached transactions is not a
finalization commit, or none when the whole batch is well formed. -/
def firstBadCommit : List HeaderAndCommits → Option Nat
  | [] => none
  | d :: rest =>
    if d.commits.all (fun c => c.isCommit) then firstBadCommit rest
    else some d.header.hash

/-- The second loop of the receiving ProcessNewCommits: accept each header
in order.  A failed AcceptBlockHeader returns false without touching
failed_block_out; an accepted entry that is not BLOCK_VALID_TREE reports
its hash; otherwise the commits are attached and the loop continues. -/
def AcceptLoop (env : AcceptEnv) :
    List HeaderAndCommits → RecvState → Bool × Option Nat × RecvState
  | [], st => (true, none, st)
  | d :: rest, st =>
    if env.accept_ok d.header.hash = false then
      (false, none, st)
    else
      let st1 := AcceptHeaderIndex st d.header
      if env.valid_tree d.header.hash = false then
        (false, some d.header.hash, st1)
      else
        AcceptLoop env rest (ResetCommits st1 d.header.hash d.commits)

/-- finalization::p2p::ProcessNewCommits (receiving side), returning the
DoS verdict, the content of failed_block_out (none when never written) and
the resulting block-index state.  The commit well-formedness check runs
over the whole batch before any header is accepted; the final switch on the
response status performs no state change. -/
def ProcessNewCommits (env : AcceptEnv) (data : List HeaderAndCommits)
    (st : RecvState) : Bool × Option Nat × RecvState :=
  match firstBadCommit data with
  | some hh => (false, some hh, st)
  | none => AcceptLoop env data st

/-! ### Part B: StateRepository and StateProcessor, modelled from the spec

The implementation of finalization/state_repository and
finalization/state_processor is not among the sources at hand; the
definitions below follow the specification text (sections 4.1 and 4.2) and
reproduce, step by step, the behavior fixed by
src/test/finalization/state_processor_tests.cpp. -/

/-- FinalizationState::InitStatus for a stored state; a block with no stored
entry reads as absent. -/
inductive InitStatus where
  | FromCommits
  | Completed
deriving DecidableEq

/-- Modelled from the spec: the StateRepository mapping from block identity
(the height in a single chain, as in the test fixture) to the stored
FinalizationState, reduced to its init status. -/
def Repo : Type := List (Nat × InitStatus)

instance : DecidableEq Repo := by
  unfold Repo; infer_instance

/-- StateRepository::Find. -/
def findEntry (repo : Repo) (h : Nat) : Option InitStatus :=
  (repo.find? (fun e => decide (e.1 = h))).map (fun e => e.2)

/-- StateRepository::Confirm: install or overwrite the stored state. -/
def setEntry (repo : Repo) (h : Nat) (s : InitStatus) : Repo :=
  (h, s) :: repo.filter (fun e => decide (e.1 ≠ h))

/-- Modelled from the spec: the last finalized epoch the rule engine reports
once the block at the given height is the tip, for epoch length E, under
the no-validator instant-finalization schedule the unit test pins: with
E = 5, processing height 5 finalizes epoch 1 (checkpoint 4), heights 6..14
finalize nothing new, and height 15 finalizes epoch 2 (checkpoint 9). -/
def lastFinalizedEpoch (E h : Nat) : Nat :=
  (h / E + 1) / 2

/-- StateRepository::TrimUntilHeight: remove every stored entry below the
boundary except genesis and the finalized checkpoint block. -/
def TrimUntilHeight (repo : Repo) (boundary checkpoint : Nat) : Repo :=
  repo.filter (fun e => decide (boundary ≤ e.1 ∨ e.1 = 0 ∨ e.1 = checkpoint))

/-- StateRepository::Reset seeds the genesis state as Completed. -/
def resetRepo : Repo := [(0, InitStatus.Completed)]

/-- StateProcessor::ProcessNewCommits for the block at height h: requires
some stored parent state (FromCommits suffices), stores a FromCommits
state, and is an idempotent no-op when the block already has a state. -/
def ProcessNewCommitsOp (repo : Repo) (h : Nat) : Bool × Repo :=
  match findEntry repo h with
  | some _ => (true, repo)
  | none =>
    if h = 0 then (false, repo)
    else
      match findEntry repo (h - 1) with
      | none => (false, repo)
      | some _ => (true, setEntry repo h InitStatus.FromCommits)

/-- The shared worker behind ProcessNewTipCandidate and ProcessNewTip: a
block already Completed is a no-op; a block already derived FromCommits is
re-derived from the full block and confirmed Completed (the snapshot-sync
path the test pins, which does not require a Completed parent); a block
with no state requires a Completed parent. -/
def ProcessNewTipWorker (repo : Repo) (h : Nat) : Bool × Repo :=
  match findEntry repo h with
  | some InitStatus.Completed => (true, repo)
  | some InitStatus.FromCommits =>
    if h = 0 then (true, setEntry repo h InitStatus.Completed)
    else
      match findEntry repo (h - 1) with
      | none => (false, repo)
      | some _ => (true, setEntry repo h InitStatus.Completed)
  | none =>
    if h = 0 then (false, repo)
    else
      match findEntry repo (h - 1) with
      | some InitStatus.Completed => (true, setEntry repo h InitStatus.Completed)
      | _ => (false, repo)

/-- StateProcessor::ProcessNewTipCandidate: derives and confirms but never
triggers trimming. -/
def ProcessNewTipCandidateOp (repo : Repo) (h : Nat) : Bool × Repo :=
  ProcessNewTipWorker repo h

/-- StateProcessor::ProcessNewTip: the worker, then, when the block advances
the last finalized epoch to k, TrimUntilHeight with boundary k*E keeping
genesis and the finalized checkpoint at height k*E - 1. -/
def ProcessNewTipOp (E : Nat) (repo : Repo) (h : Nat) : Bool × Repo :=
  match ProcessNewTipWorker repo h with
  | (false, r) => (false, r)
  | (true, r) =>
    if h ≠ 0 ∧ lastFinalizedEpoch E (h - 1) ≠ lastFinalizedEpoch E h then
      (true, TrimUntilHeight r (lastFinalizedEpoch E h * E)
        (lastFinalizedEpoch E h * E - 1))
    else
      (true, r)

/-- The repository contents after processing the chain of heights 0..n
through ProcessNewTip, as the test fixture does. -/
def addChain (E n : Nat) : Repo :=
  (List.range (n + 1)).foldl (fun r h => (ProcessNewTipOp E r h).2) resetRepo

/-- One call into the processor, for stating properties over call
sequences. -/
inductive Op where
  | commits (h : Nat)
  | candidate (h : Nat)
  | tip (h : Nat)
deriving DecidableEq

/-- The repository after one processor call. -/
def applyOp (E : Nat) (repo : Repo) : Op → Repo
  | .commits h => (ProcessNewCommitsOp repo h).2
  | .candidate h => (ProcessNewTipCandidateOp repo h).2
  | .tip h => (ProcessNewTipOp E repo h).2

/-- The order Absent (no entry), FromCommits, Completed. -/
def statusRank : Option InitStatus → Nat
  | none => 0
  | some InitStatus.FromCommits => 1
  | some InitStatus.Completed => 2

/-! ### Helper lemmas -/

theorem lookupBlock_mem {v : NodeView} {h : Nat} {b : BlockIdx}
    (hl : lookupBlock v h = some b) : b ∈ v.blocks :=
  List.mem_of_find?_eq_some hl

theorem FindMostRecentStartAux_some_ne_halted (v : NodeView) :
    ∀ (l : List Nat) (b : BlockIdx),
      FindMostRecentStartAux v l (some b) ≠ Halting.halted := by
  intro l
  induction l with
  | nil =>
    intro b
    simp [FindMostRecentStartAux]
  | cons hd rest ih =>
    intro b
    unfold FindMostRecentStartAux
    cases hl : lookupBlock v hd with
    | none => simp
    | some p =>
      by_cases hc : p.height > b.height ∧ chainContains v.chain p
      · simpa [hc] using ih p
      · simp [hc]

theorem FindMostRecentStartAux_contains (v : NodeView) :
    ∀ (l : List Nat) (last : Option BlockIdx) (s : BlockIdx),
      (∀ b, last = some b → chainContains v.chain b) →
      FindMostRecentStartAux v l last = Halting.value (some s) →
      chainContains v.chain s := by
  intro l
  induction l with
  | nil =>
    intro last s hlast h
    simp only [FindMostRecentStartAux] at h
    injection h with h
    exact hlast s h
  | cons hd rest ih =>
    intro last s hlast h
    unfold FindMostRecentStartAux at h
    cases hl : lookupBlock v hd with
    | none =>
      rw [hl] at h
      injection h with h
      exact hlast s h
    | some p =>
      rw [hl] at h
      dsimp only at h
      cases last with
      | none =>
        dsimp only at h
        by_cases hfin : IsFinalizedCheckpoint v p.height
        · rw [if_pos hfin] at h
          by_cases hc : chainContains v.chain p
          · rw [if_pos hc] at h
            refine ih (some p) s (fun b hb => ?_) h
            injection hb with hb
            rw [← hb]
            exact hc
          · rw [if_neg hc] at h
            cases h
        · rw [if_neg hfin] at h
          injection h with h
          cases h
      | some l0 =>
        dsimp only at h
        by_cases hc : p.height > l0.height ∧ chainContains v.chain p
        · rw [if_pos hc] at h
          refine ih (some p) s (fun b hb => ?_) h
          injection hb with hb
          rw [← hb]
          exact hc.2
        · rw [if_neg hc] at h
          injection h with h
          injection h with h
          rw [← h]
          exact hlast l0 rfl

theorem FindMostRecentStart_contains {v : NodeView} {loc : CommitsLocator}
    {s : BlockIdx}
    (h : FindMostRecentStart v loc = Halting.value (some s)) :
    chainContains v.chain s := by
  refine FindMostRecentStartAux_contains v loc.start none s (fun b hb => ?_) h
  cases hb

theorem FindHeaderAndCommits_header {b : BlockIdx} {hc : HeaderAndCommits}
    (h : FindHeaderAndCommits b = Halting.value hc) :
    hc.header = getBlockHeader b := by
  unfold FindHeaderAndCommits at h
  cases hcs : b.commits with
  | some cs =>
    rw [hcs] at h
    injection h with h
    rw [← h]
  | none =>
    rw [hcs] at h
    by_cases hd : b.have_data = false
    · rw [if_pos hd] at h
      cases h
    · rw [if_neg hd] at h
      cases hdisk : b.disk with
      | none => rw [hdisk] at h; cases h
      | some txs =>
        rw [hdisk] at h
        injection h with h
        rw [← h]

/-! ### Concrete examples used by witnesses and counterexamples -/

/-- A genesis block, hash 1, height 0, commits cached. -/
def gBlock : BlockIdx := ⟨1, 0, some [], true, some []⟩

/-- Height 1, hash 2, one cached commit transaction. -/
def aBlock : BlockIdx := ⟨2, 1, some [⟨true⟩], true, some []⟩

/-- Height 2, hash 3, commits not cached, data readable from disk. -/
def bBlock : BlockIdx := ⟨3, 2, none, true, some [⟨true⟩, ⟨false⟩]⟩

/-- Height 3, hash 4. -/
def cBlock : BlockIdx := ⟨4, 3, some [], true, some []⟩

/-- Height 2, hash 3, commits not cached and no block data at all. -/
def badBlock : BlockIdx := ⟨3, 2, none, false, none⟩

/-- Height 1, hash 7, a side-branch block not on the active chain. -/
def sideBlock : BlockIdx := ⟨7, 1, some [], true, some []⟩

/-- A node with the single genesis block, itself a finalized checkpoint. -/
def oneView : NodeView := ⟨[gBlock], [gBlock], [0]⟩

/-- A node with a two-block chain; only genesis is a finalized checkpoint. -/
def twoView : NodeView := ⟨[gBlock, aBlock], [gBlock, aBlock], [0]⟩

/-- A node with a four-block chain; only genesis is a finalized checkpoint. -/
def chainView : NodeView := ⟨[gBlock, aBlock, bBlock, cBlock], [gBlock, aBlock, bBlock, cBlock], [0]⟩

/-- chainView with the block at height 2 lacking both cached commits and
block data. -/
def badView : NodeView := ⟨[gBlock, aBlock, badBlock, cBlock], [gBlock, aBlock, badBlock, cBlock], [0]⟩

/-- A node whose finalization state reports height 1 as a finalized
checkpoint although the only block at height 1 sits on a side branch. -/
def sideView : NodeView := ⟨[gBlock], [gBlock, sideBlock], [0, 1]⟩

/-- The response data served for chainView from genesis to the tip. -/
def chainData : List HeaderAndCommits :=
  [⟨⟨2, 1⟩, [⟨true⟩]⟩, ⟨⟨3, 2⟩, [⟨true⟩]⟩, ⟨⟨4, 3⟩, []⟩]

/-- An environment in which header acceptance always fails. -/
def envRejectAll : AcceptEnv := ⟨fun _ => false, fun _ => true⟩

/-- An environment in which every header is accepted onto a valid chain. -/
def envAcceptAll : AcceptEnv := ⟨fun _ => true, fun _ => true⟩

/-- The empty receiving-side state. -/
def emptyRecv : RecvState := ⟨[], []⟩

/-! ### The claims -/

/-- C5: for every CommitsLocator whose first start hash resolves locally to
a block that is not a finalized checkpoint, ProcessGetCommits fails and
pushes no COMMITS response to the requesting peer (value none models the
early return false with nothing pushed). -/
theorem C5_fails_closed (v : NodeView) (loc : CommitsLocator) (h : Nat)
    (rest : List Nat) (b : BlockIdx)
    (hstart : loc.start = h :: rest)
    (hres : lookupBlock v h = some b)
    (hfin : ¬ IsFinalizedCheckpoint v b.height) :
    ProcessGetCommits v loc = Halting.value none := by
  have hfind : FindMostRecentStart v loc = Halting.value none := by
    unfold FindMostRecentStart
    rw [hstart]
    unfold FindMostRecentStartAux
    rw [hres]
    simp [hfin]
  unfold ProcessGetCommits
  rw [hfind]

/-- Witness for C5: a locator starting at the non-checkpoint block of
height 1 gets no response. -/
theorem C5_fails_closed_witness :
    ProcessGetCommits chainView ⟨[2], 0⟩ = Halting.value none :=
  C5_fails_closed chainView ⟨[2], 0⟩ 2 [] aBlock rfl (by decide) (by decide)

/-- C9: when the serving-side walk reaches an active-chain block whose
commits are not cached and whose full block data is absent or unreadable
from disk, FindHeaderAndCommits halts the node (assertion failure) and the
walk halts with it, rather than skipping the block or producing a partial
response. -/
theorem C9_halts_on_missing_data (v : NodeView) (stop : Option BlockIdx)
    (fuel : Nat) (p q : BlockIdx) (acc : List HeaderAndCommits)
    (hnext : chainNext v.chain p = some q)
    (hcache : q.commits = none)
    (hbad : q.have_data = false ∨ q.disk = none) :
    FindHeaderAndCommits q = Halting.halted ∧
      GetCommitsWalk v stop (fuel + 1) p acc = Halting.halted := by
  have h1 : FindHeaderAndCommits q = Halting.halted := by
    unfold FindHeaderAndCommits
    rw [hcache]
    rcases hbad with hb | hb
    · rw [if_pos hb]
    · by_cases hd : q.have_data = false
      · rw [if_pos hd]
      · rw [if_neg hd, hb]
  refine ⟨h1, ?_⟩
  unfold GetCommitsWalk
  rw [hnext]
  dsimp only
  rw [h1]

/-- Witness for C9: the walk over badView halts at the block of height 2. -/
theorem C9_halts_on_missing_data_witness :
    FindHeaderAndCommits badBlock = Halting.halted ∧
      GetCommitsWalk badView none 1 aBlock [] = Halting.halted :=
  C9_halts_on_missing_data badView none 0 aBlock badBlock [] (by decide)
    (by decide) (by decide)

/-- C10: the assertion in FindMostRecentStart that the first resolved start
hash lies on the active chain holds whenever every block the finalization
state reports as a finalized checkpoint is on the active chain; and for a
locator whose first hash resolves to a finalized-checkpoint block on a side
branch the serving side halts on the assertion instead of failing
gracefully. -/
theorem C10_assert_contains (v : NodeView) (loc : CommitsLocator)
    (hpre : ∀ b ∈ v.blocks, IsFinalizedCheckpoint v b.height → chainContains v.chain b) :
    FindMostRecentStart v loc ≠ Halting.halted ∧
      FindMostRecentStart sideView ⟨[7], 0⟩ = Halting.halted := by
  refine ⟨?_, by decide⟩
  unfold FindMostRecentStart
  cases hl : loc.start with
  | nil => simp [FindMostRecentStartAux]
  | cons hd rest =>
    unfold FindMostRecentStartAux
    cases hlk : lookupBlock v hd with
    | none => simp
    | some p =>
      dsimp only
      by_cases hfin : IsFinalizedCheckpoint v p.height
      · have hc : chainContains v.chain p := hpre p (lookupBlock_mem hlk) hfin
        rw [if_pos hfin, if_pos hc]
        exact FindMostRecentStartAux_some_ne_halted v rest p
      · simp [hfin]

/-- Witness for C10: on a view whose finalized checkpoints all lie on the
chain the function never halts, while sideView halts. -/
theorem C10_assert_contains_witness :
    FindMostRecentStart oneView ⟨[1], 0⟩ ≠ Halting.halted ∧
      FindMostRecentStart sideView ⟨[7], 0⟩ = Halting.halted :=
  C10_assert_contains oneView ⟨[1], 0⟩ (by decide)

/-- C4: the claim that served responses never exceed a configured size cap
(LengthExceeded marking truncation at the cap) fails on the code: the walk
of ProcessGetCommits has no length check at all, serves the whole chain,
and no code path ever produces a LengthExceeded status. -/
theorem C4_no_length_cap :
    (ProcessGetCommits chainView ⟨[1], 0⟩ =
       Halting.value (some (chainData, Status.TipReached)) ∧ chainData.length = 3) ∧
    (∀ (v : NodeView) (stop : Option BlockIdx) (fuel : Nat) (p : BlockIdx)
       (acc d : List HeaderAndCommits) (st : Status),
       GetCommitsWalk v stop fuel p acc = Halting.value (d, st) →
       st ≠ Status.LengthExceeded) := by
  refine ⟨⟨by decide, by decide⟩, ?_⟩
  intro v stop fuel
  induction fuel with
  | zero =>
    intro p acc d st hw
    simp only [GetCommitsWalk] at hw
    injection hw with hw
    injection hw with h1 h2
    rw [← h2]
    decide
  | succ fuel ih =>
    intro p acc d st hw
    unfold GetCommitsWalk at hw
    cases hnext : chainNext v.chain p with
    | none =>
      rw [hnext] at hw
      injection hw with hw
      injection hw with h1 h2
      rw [← h2]
      decide
    | some q =>
      rw [hnext] at hw
      dsimp only at hw
      cases hfhc : FindHeaderAndCommits q with
      | halted =>
        rw [hfhc] at hw
        cases hw
      | value hc =>
        rw [hfhc] at hw
        dsimp only at hw
        by_cases hcond : stop = some q ∨ IsFinalizedCheckpoint v q.height
        · rw [if_pos hcond] at hw
          injection hw with hw
          injection hw with h1 h2
          rw [← h2]
          decide
        · rw [if_neg hcond] at hw
          exact ih q (acc ++ [hc]) d st hw

/-! ### Receiving-side lemmas and claims C3, C6 -/

theorem firstBadCommit_append (pre : List HeaderAndCommits) (d : HeaderAndCommits)
    (post : List HeaderAndCommits)
    (hpre : ∀ e ∈ pre, e.commits.all (fun c => c.isCommit) = true)
    (hd : d.commits.all (fun c => c.isCommit) = false) :
    firstBadCommit (pre ++ d :: post) = some d.header.hash := by
  induction pre with
  | nil => simp [firstBadCommit, hd]
  | cons e rest ih =>
    have he : e.commits.all (fun c => c.isCommit) = true := hpre e (by simp)
    simp only [List.cons_append, firstBadCommit, he, if_true]
    exact ih (fun x hx => hpre x (by simp [hx]))

theorem firstBadCommit_isSome {data : List HeaderAndCommits}
    (hbad : ∃ d ∈ data, ∃ c ∈ d.commits, c.isCommit = false) :
    ∃ hh, firstBadCommit data = some hh := by
  induction data with
  | nil =>
    obtain ⟨d, hd, _⟩ := hbad
    cases hd
  | cons e rest ih =>
    by_cases he : e.commits.all (fun c => c.isCommit) = true
    · obtain ⟨d, hd, c, hc, hcf⟩ := hbad
      rcases List.mem_cons.mp hd with rfl | hd2
      · have := List.all_eq_true.mp he c hc
        simp only [hcf] at this
        cases this
      · obtain ⟨hh, hfb⟩ := ih ⟨d, hd2, c, hc, hcf⟩
        exact ⟨hh, by simp [firstBadCommit, he, hfb]⟩
    · exact ⟨e.header.hash, by simp [firstBadCommit, he]⟩

/-- C3: a CommitsResponse in which any transaction attached to any header
fails the finalization-commit check is rejected by the receiving
ProcessNewCommits with zero headers accepted and no commits attached: the
returned state equals the input state. -/
theorem C3_atomic_rejection (env : AcceptEnv) (data : List HeaderAndCommits)
    (st : RecvState)
    (hbad : ∃ d ∈ data, ∃ c ∈ d.commits, c.isCommit = false) :
    (ProcessNewCommits env data st).1 = false ∧
      (ProcessNewCommits env data st).2.2 = st := by
  obtain ⟨hh, hfb⟩ := firstBadCommit_isSome hbad
  unfold ProcessNewCommits
  rw [hfb]
  exact ⟨rfl, rfl⟩

/-- Witness for C3: a batch whose first header is well formed and whose
second carries a non-commit transaction is rejected wholesale. -/
theorem C3_atomic_rejection_witness :
    (ProcessNewCommits envAcceptAll [⟨⟨5, 1⟩, [⟨true⟩]⟩, ⟨⟨6, 2⟩, [⟨false⟩]⟩] emptyRecv).1 = false ∧
      (ProcessNewCommits envAcceptAll [⟨⟨5, 1⟩, [⟨true⟩]⟩, ⟨⟨6, 2⟩, [⟨false⟩]⟩] emptyRecv).2.2 = emptyRecv :=
  C3_atomic_rejection envAcceptAll [⟨⟨5, 1⟩, [⟨true⟩]⟩, ⟨⟨6, 2⟩, [⟨false⟩]⟩] emptyRecv
    ⟨⟨⟨6, 2⟩, [⟨false⟩]⟩, by decide, ⟨false⟩, by decide, rfl⟩

/-- C6 counterexample: ProcessNewCommits rejects a message because header
acceptance fails, yet failed_block_out is never written (the middle
component stays none), so not every rejection reports an offending block
hash. -/
theorem C6_counterexample :
    ProcessNewCommits envRejectAll [⟨⟨5, 1⟩, [⟨true⟩]⟩] emptyRecv =
      (false, none, emptyRecv) := by
  decide

/-- C6 amended: ProcessNewCommits reports the hash of the first offending
block through failed_block_out for the non-commit-transaction rejection and
for the not-on-a-valid-header-chain rejection, but a failed
AcceptBlockHeader returns false without writing failed_block_out. -/
theorem C6_failure_reporting (env : AcceptEnv) (st : RecvState)
    (pre : List HeaderAndCommits) (d : HeaderAndCommits)
    (post : List HeaderAndCommits)
    (hpre : ∀ e ∈ pre, e.commits.all (fun c => c.isCommit) = true)
    (hd : d.commits.all (fun c => c.isCommit) = false) :
    ProcessNewCommits env (pre ++ d :: post) st = (false, some d.header.hash, st) ∧
    (∀ (env2 : AcceptEnv) (st2 : RecvState) (e : HeaderAndCommits)
       (rest : List HeaderAndCommits),
       firstBadCommit (e :: rest) = none →
       env2.accept_ok e.header.hash = false →
       ProcessNewCommits env2 (e :: rest) st2 = (false, none, st2)) ∧
    (∀ (env2 : AcceptEnv) (st2 : RecvState) (e : HeaderAndCommits)
       (rest : List HeaderAndCommits),
       firstBadCommit (e :: rest) = none →
       env2.accept_ok e.header.hash = true →
       env2.valid_tree e.header.hash = false →
       ProcessNewCommits env2 (e :: rest) st2 =
         (false, some e.header.hash, AcceptHeaderIndex st2 e.header)) := by
  refine ⟨?_, ?_, ?_⟩
  · unfold ProcessNewCommits
    rw [firstBadCommit_append pre d post hpre hd]
  · intro env2 st2 e rest hfb hacc
    unfold ProcessNewCommits
    rw [hfb]
    unfold AcceptLoop
    rw [if_pos hacc]
  · intro env2 st2 e rest hfb hacc htree
    unfold ProcessNewCommits
    rw [hfb]
    unfold AcceptLoop
    rw [if_neg (by simp [hacc])]
    dsimp only
    rw [if_pos htree]

/-- Witness for C6 amended: the first offending header hash 6 is
reported. -/
theorem C6_failure_reporting_witness :
    ProcessNewCommits envAcceptAll [⟨⟨5, 1⟩, [⟨true⟩]⟩, ⟨⟨6, 2⟩, [⟨false⟩]⟩] emptyRecv =
      (false, some 6, emptyRecv) :=
  (C6_failure_reporting envAcceptAll emptyRecv [⟨⟨5, 1⟩, [⟨true⟩]⟩]
    ⟨⟨6, 2⟩, [⟨false⟩]⟩ [] (by decide) (by decide)).1

/-! ### Repository lemmas and claims C1, C8 -/

theorem findEntry_cons (e : Nat × InitStatus) (rest : Repo) (b : Nat) :
    findEntry (e :: rest) b = if e.1 = b then some e.2 else findEntry rest b := by
  by_cases he : e.1 = b
  · simp [findEntry, List.find?, he]
  · simp [findEntry, List.find?, he]

theorem findEntry_filter (repo : Repo) (g : Nat → Bool) (b : Nat) :
    findEntry (repo.filter (fun e => g e.1)) b =
      if g b then findEntry repo b else none := by
  induction repo with
  | nil => simp [findEntry]
  | cons e rest ih =>
    rw [List.filter_cons]
    by_cases hg : g e.1 = true
    · rw [if_pos hg, findEntry_cons, findEntry_cons]
      by_cases he : e.1 = b
      · subst he
        simp [hg]
      · simp only [if_neg he]
        exact ih
    · rw [if_neg (by simp [hg]), ih, findEntry_cons]
      by_cases he : e.1 = b
      · subst he
        simp [hg]
      · simp only [if_neg he]

theorem findEntry_setEntry (repo : Repo) (h : Nat) (s : InitStatus) (b : Nat) :
    findEntry (setEntry repo h s) b = if b = h then some s else findEntry repo b := by
  unfold setEntry
  rw [findEntry_cons]
  by_cases hb : b = h
  · rw [if_pos (by omega : h = b), if_pos hb]
  · rw [if_neg (by omega : ¬ h = b), if_neg hb]
    rw [findEntry_filter repo (fun x => decide (x ≠ h)) b]
    simp [hb]

theorem findEntry_trim (repo : Repo) (bd cp b : Nat) :
    findEntry (TrimUntilHeight repo bd cp) b =
      if bd ≤ b ∨ b = 0 ∨ b = cp then findEntry repo b else none := by
  unfold TrimUntilHeight
  rw [findEntry_filter repo (fun x => decide (bd ≤ x ∨ x = 0 ∨ x = cp)) b]
  by_cases hb : bd ≤ b ∨ b = 0 ∨ b = cp
  · simp [hb]
  · simp [hb]

theorem statusRank_le_two (s : Option InitStatus) : statusRank s ≤ 2 := by
  rcases s with _ | s
  · decide
  · cases s <;> decide

theorem lfe_mul_le (E h : Nat) : lastFinalizedEpoch E h * E ≤ h := by
  unfold lastFinalizedEpoch
  rcases Nat.eq_zero_or_pos (h / E) with hq | hq
  · rw [hq]
    simp
  · have h1 : (h / E + 1) / 2 ≤ h / E := by omega
    calc (h / E + 1) / 2 * E ≤ h / E * E := Nat.mul_le_mul_right E h1
      _ ≤ h := Nat.div_mul_le_self h E

/-- C1 amended: the Completed-parent precondition holds for blocks that have
no stored state of their own: when the parent entry is anything but
Completed and the block has no entry, both ProcessNewTipCandidate and
ProcessNewTip return false and leave the repository unchanged.  (When the
block already holds a FromCommits state, the snapshot-sync path completes
it even though the parent is only FromCommits; see the counterexample.) -/
theorem C1_parent_precondition (E : Nat) (repo : Repo) (h : Nat)
    (h0 : h ≠ 0)
    (hself : findEntry repo h = none)
    (hpar : findEntry repo (h - 1) ≠ some InitStatus.Completed) :
    ProcessNewTipCandidateOp repo h = (false, repo) ∧
      ProcessNewTipOp E repo h = (false, repo) := by
  have hw : ProcessNewTipWorker repo h = (false, repo) := by
    unfold ProcessNewTipWorker
    rw [hself]
    dsimp only
    rw [if_neg h0]
    cases hp : findEntry repo (h - 1) with
    | none => rfl
    | some s =>
      cases s with
      | FromCommits => rfl
      | Completed => exact absurd hp hpar
  refine ⟨hw, ?_⟩
  unfold ProcessNewTipOp
  rw [hw]

/-- Witness for C1 amended: a stateless block at height 2 over a
FromCommits parent is refused by both entry points. -/
theorem C1_parent_precondition_witness :
    ProcessNewTipCandidateOp [(1, InitStatus.FromCommits), (0, InitStatus.Completed)] 2 =
      (false, [(1, InitStatus.FromCommits), (0, InitStatus.Completed)]) ∧
    ProcessNewTipOp 5 [(1, InitStatus.FromCommits), (0, InitStatus.Completed)] 2 =
      (false, [(1, InitStatus.FromCommits), (0, InitStatus.Completed)]) :=
  C1_parent_precondition 5 [(1, InitStatus.FromCommits), (0, InitStatus.Completed)] 2
    (by decide) (by decide) (by decide)

/-- The repository reached by processing heights 0..5 as tips (trimming
after the finalization at height 5) and then deriving heights 6 and 7 from
commits, as the snapshot-sync scenario of the unit test does. -/
def c1Repo : Repo :=
  (ProcessNewCommitsOp (ProcessNewCommitsOp (addChain 5 5) 6).2 7).2

/-- C1 counterexample: block 7 has a FromCommits parent (block 6), yet
ProcessNewTip succeeds on it and changes the repository, against the
claimed Completed-parent precondition for the tip entry points. -/
theorem C1_counterexample :
    findEntry c1Repo 6 = some InitStatus.FromCommits ∧
      (ProcessNewTipOp 5 c1Repo 7).1 = true ∧
      (ProcessNewTipOp 5 c1Repo 7).2 ≠ c1Repo := by
  decide

/-- The guard of the amended monotonicity claim: ProcessNewCommits and
ProcessNewTipCandidate never lower any status, and ProcessNewTip never
lowers the status of the block it processes (but its trimming step may
erase other blocks). -/
def opGuard : Op → Nat → Prop
  | Op.tip h, b => b = h
  | _, _ => True

theorem worker_shape (repo : Repo) (h : Nat) :
    ProcessNewTipWorker repo h = (false, repo) ∨
      ProcessNewTipWorker repo h = (true, repo) ∨
      ProcessNewTipWorker repo h = (true, setEntry repo h InitStatus.Completed) := by
  unfold ProcessNewTipWorker
  cases hh : findEntry repo h with
  | some s =>
    cases s with
    | Completed => exact Or.inr (Or.inl rfl)
    | FromCommits =>
      dsimp only
      by_cases h0 : h = 0
      · rw [if_pos h0]
        exact Or.inr (Or.inr rfl)
      · rw [if_neg h0]
        cases hp : findEntry repo (h - 1) with
        | none => exact Or.inl rfl
        | some s2 => exact Or.inr (Or.inr rfl)
  | none =>
    dsimp only
    by_cases h0 : h = 0
    · rw [if_pos h0]
      exact Or.inl rfl
    · rw [if_neg h0]
      cases hp : findEntry repo (h - 1) with
      | none => exact Or.inl rfl
      | some s2 =>
        cases s2 with
        | Completed => exact Or.inr (Or.inr rfl)
        | FromCommits => exact Or.inl rfl

theorem rank_after_set (repo : Repo) (h b : Nat) :
    statusRank (findEntry repo b) ≤
      statusRank (findEntry (setEntry repo h InitStatus.Completed) b) := by
  rw [findEntry_setEntry]
  by_cases hb : b = h
  · rw [if_pos hb]
    exact statusRank_le_two _
  · rw [if_neg hb]

/-- C8 amended: per call, the processed block's own init status never
regresses, and ProcessNewCommits and ProcessNewTipCandidate never lower any
block's status; only the trimming step of ProcessNewTip can erase other
blocks' states (after which a block may be re-derived from commits, so the
observed sequence regresses only through trimming; see the
counterexample). -/
theorem C8_status_monotonic (E : Nat) (repo : Repo) (op : Op) (b : Nat)
    (hguard : opGuard op b) :
    statusRank (findEntry repo b) ≤
      statusRank (findEntry (applyOp E repo op) b) := by
  cases op with
  | commits h =>
    show statusRank _ ≤ statusRank (findEntry (ProcessNewCommitsOp repo h).2 b)
    unfold ProcessNewCommitsOp
    cases hh : findEntry repo h with
    | some s => exact le_refl _
    | none =>
      dsimp only
      by_cases h0 : h = 0
      · rw [if_pos h0]
      · rw [if_neg h0]
        cases hp : findEntry repo (h - 1) with
        | none => exact le_refl _
        | some s =>
          dsimp only
          rw [findEntry_setEntry]
          by_cases hb : b = h
          · rw [if_pos hb, hb, hh]
            decide
          · rw [if_neg hb]
  | candidate h =>
    show statusRank _ ≤ statusRank (findEntry (ProcessNewTipWorker repo h).2 b)
    rcases worker_shape repo h with hw | hw | hw
    · rw [hw]
    · rw [hw]
    · rw [hw]
      exact rank_after_set repo h b
  | tip h =>
    have hb : b = h := hguard
    subst hb
    show statusRank _ ≤ statusRank (findEntry (ProcessNewTipOp E repo b).2 b)
    unfold ProcessNewTipOp
    have htrim : ∀ r : Repo, findEntry r b = findEntry
        (TrimUntilHeight r (lastFinalizedEpoch E b * E) (lastFinalizedEpoch E b * E - 1)) b := by
      intro r
      rw [findEntry_trim]
      rw [if_pos (Or.inl (lfe_mul_le E b))]
    rcases worker_shape repo b with hw | hw | hw
    · rw [hw]
    · rw [hw]
      dsimp only
      by_cases hcond : b ≠ 0 ∧ lastFinalizedEpoch E (b - 1) ≠ lastFinalizedEpoch E b
      · rw [if_pos hcond]
        dsimp only
        rw [← htrim repo]
      · rw [if_neg hcond]
    · rw [hw]
      dsimp only
      by_cases hcond : b ≠ 0 ∧ lastFinalizedEpoch E (b - 1) ≠ lastFinalizedEpoch E b
      · rw [if_pos hcond]
        dsimp only
        rw [← htrim (setEntry repo b InitStatus.Completed)]
        exact rank_after_set repo b b
      · rw [if_neg hcond]
        exact rank_after_set repo b b

/-- Witness for C8 amended: deriving block 1 from commits over genesis
raises its status from absent to FromCommits. -/
theorem C8_status_monotonic_witness :
    statusRank (findEntry resetRepo 1) ≤
      statusRank (findEntry (applyOp 5 resetRepo (Op.commits 1)) 1) :=
  C8_status_monotonic 5 resetRepo (Op.commits 1) 1 trivial

/-- C8 counterexample: block 1 is observed Completed after the first five
tips, absent after the trimming triggered by ProcessNewTip on height 5, and
FromCommits after a later ProcessNewCommits call, so the observed status
sequence regresses in the order Absent, FromCommits, Completed. -/
theorem C8_counterexample :
    findEntry (addChain 5 4) 1 = some InitStatus.Completed ∧
      findEntry (addChain 5 5) 1 = none ∧
      findEntry (ProcessNewCommitsOp (addChain 5 5) 1).2 1 = some InitStatus.FromCommits := by
  decide

/-! ### Claim C7: TipReached responses end at the chain tip -/

theorem getLast_append_one {α : Type} (l : List α) (a : α) :
    (l ++ [a]).getLast? = some a := by
  induction l with
  | nil => rfl
  | cons x xs ih =>
    rw [List.cons_append, List.getLast?_cons, ih]
    rfl

theorem GetCommitsWalk_tipReached (v : NodeView) (stop : Option BlockIdx)
    (hwf : ∀ i b, v.chain.get? i = some b → b.height = i) :
    ∀ (fuel : Nat) (p : BlockIdx) (acc d : List HeaderAndCommits),
      chainContains v.chain p →
      (acc = [] ∨ acc.getLast?.map (fun hc => hc.header.height) = some p.height) →
      GetCommitsWalk v stop fuel p acc = Halting.value (d, Status.TipReached) →
      d = [] ∨ d.getLast?.map (fun hc => hc.header.height) = some (v.chain.length - 1) := by
  intro fuel
  induction fuel with
  | zero =>
    intro p acc d hp hacc hw
    simp only [GetCommitsWalk] at hw
    injection hw with hw
    injection hw with h1 h2
    cases h2
  | succ fuel ih =>
    intro p acc d hp hacc hw
    unfold GetCommitsWalk at hw
    cases hnext : chainNext v.chain p with
    | none =>
      rw [hnext] at hw
      injection hw with hw
      injection hw with h1 h2
      have hcon : v.chain.get? p.height = some p := hp
      have hlt : p.height < v.chain.length := by
        rcases List.get?_eq_some.mp hcon with ⟨hlt, _⟩
        exact hlt
      have hnone : v.chain.get? (p.height + 1) = none := by
        unfold chainNext at hnext
        rw [if_pos hp] at hnext
        exact hnext
      have hlen : v.chain.length ≤ p.height + 1 := List.get?_eq_none.mp hnone
      have htip : p.height = v.chain.length - 1 := by omega
      rcases hacc with hacc | hacc
      · left
        rw [← h1, hacc]
      · right
        rw [← h1, hacc, htip]
    | some q =>
      rw [hnext] at hw
      dsimp only at hw
      have hq : v.chain.get? (p.height + 1) = some q := by
        unfold chainNext at hnext
        rw [if_pos hp] at hnext
        exact hnext
      have hqh : q.height = p.height + 1 := hwf (p.height + 1) q hq
      have hqc : chainContains v.chain q := by
        unfold chainContains
        rw [hqh]
        exact hq
      cases hfhc : FindHeaderAndCommits q with
      | halted =>
        rw [hfhc] at hw
        cases hw
      | value hc =>
        rw [hfhc] at hw
        dsimp only at hw
        have hhdr : hc.header.height = q.height := by
          rw [FindHeaderAndCommits_header hfhc]
          rfl
        by_cases hcond : stop = some q ∨ IsFinalizedCheckpoint v q.height
        · rw [if_pos hcond] at hw
          injection hw with hw
          injection hw with h1 h2
          cases h2
        · rw [if_neg hcond] at hw
          refine ih q (acc ++ [hc]) d hqc (Or.inr ?_) hw
          rw [getLast_append_one]
          simp [hhdr]

/-- C7 amended: whenever ProcessGetCommits answers with status TipReached
and a nonempty data list, the last entry's header height equals the active
chain tip's height; with an empty data list (the resolved start is already
the tip) there is no last entry, see the counterexample. -/
theorem C7_tip_reached (v : NodeView) (loc : CommitsLocator)
    (d : List HeaderAndCommits)
    (hwf : ∀ i b, v.chain.get? i = some b → b.height = i)
    (hrun : ProcessGetCommits v loc = Halting.value (some (d, Status.TipReached)))
    (hne : d ≠ []) :
    d.getLast?.map (fun hc => hc.header.height) = some (v.chain.length - 1) := by
  unfold ProcessGetCommits at hrun
  cases hstart : FindMostRecentStart v loc with
  | halted =>
    rw [hstart] at hrun
    cases hrun
  | value o =>
    rw [hstart] at hrun
    cases o with
    | none =>
      dsimp only at hrun
      injection hrun with hrun
      cases hrun
    | some s =>
      dsimp only at hrun
      cases hwalk : GetCommitsWalk v (FindStop v loc) (v.chain.length + 1) s [] with
      | halted =>
        rw [hwalk] at hrun
        cases hrun
      | value r =>
        rw [hwalk] at hrun
        injection hrun with hrun
        injection hrun with hrun
        rw [hrun] at hwalk
        have hcont : chainContains v.chain s := FindMostRecentStart_contains hstart
        rcases GetCommitsWalk_tipReached v (FindStop v loc) hwf
            (v.chain.length + 1) s [] d hcont (Or.inl rfl) hwalk with hd | hl
        · exact absurd hd hne
        · exact hl

/-- Helper for the C7 witness: the two-block chain is height consistent. -/
theorem twoView_wf : ∀ i b, twoView.chain.get? i = some b → b.height = i := by
  intro i b hb
  match i with
  | 0 =>
    have hbg : gBlock = b := by simpa [twoView] using hb
    rw [← hbg]
    rfl
  | 1 =>
    have hba : aBlock = b := by simpa [twoView] using hb
    rw [← hba]
    rfl
  | Nat.succ (Nat.succ n) =>
    simp [twoView, List.get?] at hb

/-- C7 counterexample: a locator starting at the tip itself (the one-block
chain whose genesis is a finalized checkpoint) yields status TipReached
with an empty data list, so the response has no last entry equal to the
tip, against the claim as stated. -/
theorem C7_counterexample :
    ProcessGetCommits oneView ⟨[1], 0⟩ = Halting.value (some ([], Status.TipReached)) ∧
      ([] : List HeaderAndCommits).getLast? = none :=
  ⟨by decide, rfl⟩

/-- Witness for C7 amended: on the two-block chain the single served entry
has the tip height 1. -/
theorem C7_tip_reached_witness :
    ([⟨⟨2, 1⟩, [⟨true⟩]⟩] : List HeaderAndCommits).getLast?.map
        (fun hc => hc.header.height) = some (twoView.chain.length - 1) :=
  C7_tip_reached twoView ⟨[1], 0⟩ [⟨⟨2, 1⟩, [⟨true⟩]⟩] twoView_wf (by decide) (by decide)

/-! ### Claim C2: the trimming boundary -/

theorem lfe_zero (h : Nat) : lastFinalizedEpoch 0 h = 0 := by
  unfold lastFinalizedEpoch
  rw [Nat.div_zero]

theorem lfe_mono (E : Nat) {a b : Nat} (hab : a ≤ b) :
    lastFinalizedEpoch E a ≤ lastFinalizedEpoch E b :=
  Nat.div_le_div_right (Nat.succ_le_succ (Nat.div_le_div_right hab))

theorem lfe_step (E n : Nat) :
    lastFinalizedEpoch E (n + 1) ≤ lastFinalizedEpoch E n + 1 := by
  unfold lastFinalizedEpoch
  rcases Nat.eq_zero_or_pos E with hE | hE
  · subst hE
    simp [Nat.div_zero]
  · have h1 : (n + 1) / E ≤ n / E + 1 := by
      have h2 : n + 1 ≤ n + E := by omega
      have h3 := Nat.div_le_div_right (c := E) h2
      rw [Nat.add_div_right n hE] at h3
      exact h3
    generalize hx : (n + 1) / E = x at h1 ⊢
    generalize hy : n / E = y at h1 ⊢
    omega

theorem addChain_succ (E n : Nat) :
    addChain E (n + 1) = (ProcessNewTipOp E (addChain E n) (n + 1)).2 := by
  unfold addChain
  rw [List.range_succ, List.foldl_append]
  rfl

/-- The repository contents after processing heights 0..n as tips: exactly
genesis, the current finalized checkpoint (the last block of the last
finalized epoch) and every block from the current trim boundary up to the
tip are stored, all Completed. -/
theorem addChain_find (E : Nat) : ∀ n h : Nat,
    findEntry (addChain E n) h =
      if h = 0 ∨ (1 ≤ lastFinalizedEpoch E n ∧ h + 1 = lastFinalizedEpoch E n * E) ∨
          (lastFinalizedEpoch E n * E ≤ h ∧ h ≤ n)
      then some InitStatus.Completed else none := by
  intro n
  induction n with
  | zero =>
    intro h
    have hF : lastFinalizedEpoch E 0 = 0 := by
      unfold lastFinalizedEpoch
      rw [Nat.zero_div]
    have hop : ProcessNewTipOp E resetRepo 0 = (true, resetRepo) := by
      have hw : ProcessNewTipWorker resetRepo 0 = (true, resetRepo) := rfl
      unfold ProcessNewTipOp
      rw [hw]
      dsimp only
      rw [if_neg (by simp)]
    have hrepo : addChain E 0 = resetRepo := by
      show (List.range 1).foldl (fun r x => (ProcessNewTipOp E r x).2) resetRepo = resetRepo
      rw [show List.range 1 = [0] from rfl]
      simp [List.foldl, hop]
    rw [hrepo, hF]
    simp only [Nat.zero_mul]
    by_cases h0 : h = 0
    · subst h0
      rw [if_pos (Or.inl rfl)]
      rfl
    · rw [if_neg (by omega)]
      have hc : findEntry resetRepo h =
          if (0 : Nat) = h then some InitStatus.Completed else findEntry [] h :=
        findEntry_cons (0, InitStatus.Completed) [] h
      rw [hc, if_neg (by omega)]
      rfl
  | succ n ih =>
    intro h
    rw [addChain_succ]
    have hA : lastFinalizedEpoch E n * E ≤ n := lfe_mul_le E n
    have hB : lastFinalizedEpoch E (n + 1) * E ≤ n + 1 := lfe_mul_le E (n + 1)
    have hmono : lastFinalizedEpoch E n ≤ lastFinalizedEpoch E (n + 1) :=
      lfe_mono E (Nat.le_succ n)
    have hstep : lastFinalizedEpoch E (n + 1) ≤ lastFinalizedEpoch E n + 1 :=
      lfe_step E n
    have hfind_n : findEntry (addChain E n) n = some InitStatus.Completed := by
      rw [ih n, if_pos (Or.inr (Or.inr ⟨hA, le_refl n⟩))]
    have hfind_n1 : findEntry (addChain E n) (n + 1) = none := by
      rw [ih (n + 1)]
      rw [if_neg ?_]
      intro hcon
      rcases hcon with h1 | ⟨h2, h3⟩ | ⟨h4, h5⟩
      · exact Nat.succ_ne_zero n h1
      · rw [← h3] at hA
        omega
      · omega
    have hw : ProcessNewTipWorker (addChain E n) (n + 1) =
        (true, setEntry (addChain E n) (n + 1) InitStatus.Completed) := by
      unfold ProcessNewTipWorker
      rw [hfind_n1]
      dsimp only
      rw [if_neg (Nat.succ_ne_zero n)]
      rw [show n + 1 - 1 = n from rfl, hfind_n]
    unfold ProcessNewTipOp
    rw [hw]
    dsimp only
    by_cases htrig : lastFinalizedEpoch E n = lastFinalizedEpoch E (n + 1)
    · rw [if_neg (fun hcontra => hcontra.2 htrig)]
      rw [findEntry_setEntry]
      by_cases hbn : h = n + 1
      · subst hbn
        rw [if_pos rfl, if_pos (Or.inr (Or.inr ⟨hB, le_refl _⟩))]
      · rw [if_neg hbn, ih h]
        refine if_congr ?_ rfl rfl
        rw [htrig]
        constructor
        · intro hcon
          rcases hcon with h1 | ⟨h2, h3⟩ | ⟨h4, h5⟩
          · exact Or.inl h1
          · exact Or.inr (Or.inl ⟨h2, h3⟩)
          · exact Or.inr (Or.inr ⟨h4, by omega⟩)
        · intro hcon
          rcases hcon with h1 | ⟨h2, h3⟩ | ⟨h4, h5⟩
          · exact Or.inl h1
          · exact Or.inr (Or.inl ⟨h2, h3⟩)
          · exact Or.inr (Or.inr ⟨h4, by omega⟩)
    · have hsucc : lastFinalizedEpoch E (n + 1) = lastFinalizedEpoch E n + 1 := by
        omega
      have hE : 1 ≤ E := by
        by_contra hc
        have hE0 : E = 0 := by omega
        subst hE0
        exact htrig (by rw [lfe_zero, lfe_zero])
      have hF1pos : 1 ≤ lastFinalizedEpoch E (n + 1) := by omega
      have hba : lastFinalizedEpoch E (n + 1) * E = lastFinalizedEpoch E n * E + E := by
        rw [hsucc, Nat.succ_mul]
      rw [if_pos ⟨Nat.succ_ne_zero n, htrig⟩]
      dsimp only
      rw [findEntry_trim, findEntry_setEntry]
      by_cases htrim : lastFinalizedEpoch E (n + 1) * E ≤ h ∨ h = 0 ∨
          h = lastFinalizedEpoch E (n + 1) * E - 1
      · rw [if_pos htrim]
        by_cases hbn : h = n + 1
        · subst hbn
          rw [if_pos rfl, if_pos (Or.inr (Or.inr ⟨hB, le_refl _⟩))]
        · rw [if_neg hbn, ih h]
          refine if_congr ?_ rfl rfl
          have harith : ∀ a b F0v F1v : Nat, a ≤ n → b ≤ n + 1 → b = a + E →
              1 ≤ E → F1v = F0v + 1 → 1 ≤ F1v →
              (b ≤ h ∨ h = 0 ∨ h = b - 1) → h ≠ n + 1 →
              ((h = 0 ∨ (1 ≤ F0v ∧ h + 1 = a) ∨ (a ≤ h ∧ h ≤ n)) ↔
                (h = 0 ∨ (1 ≤ F1v ∧ h + 1 = b) ∨ (b ≤ h ∧ h ≤ n + 1))) := by
            intro a b F0v F1v ha2 hb2 hba2 hE2 hs2 hp2 ht2 hn2
            omega
          exact harith (lastFinalizedEpoch E n * E) (lastFinalizedEpoch E (n + 1) * E)
            (lastFinalizedEpoch E n) (lastFinalizedEpoch E (n + 1))
            hA hB hba hE hsucc hF1pos htrim hbn
      · rw [if_neg htrim]
        have harith2 : ∀ b F1v : Nat, lastFinalizedEpoch E n * E + E = b → 1 ≤ E →
            ¬(b ≤ h ∨ h = 0 ∨ h = b - 1) →
            ¬(h = 0 ∨ (1 ≤ F1v ∧ h + 1 = b) ∨ (b ≤ h ∧ h ≤ n + 1)) := by
          intro b F1v hb2 hE2 ht2
          omega
        rw [if_neg (harith2 (lastFinalizedEpoch E (n + 1) * E)
          (lastFinalizedEpoch E (n + 1)) hba.symm hE htrim)]

/-- C2: for every epoch length E, once the last finalized epoch is k (a
block has triggered finalization of epoch k), repository lookups for
heights strictly below k*E are absent except genesis and the finalized
checkpoint block at height k*E - 1, while every processed height at or
above k*E is still stored. -/
theorem C2_trimming_boundary (E n k : Nat)
    (hk : lastFinalizedEpoch E n = k) (hk1 : 1 ≤ k) :
    (∀ h, h < k * E → h ≠ 0 → h ≠ k * E - 1 → findEntry (addChain E n) h = none) ∧
    findEntry (addChain E n) 0 = some InitStatus.Completed ∧
    findEntry (addChain E n) (k * E - 1) = some InitStatus.Completed ∧
    (∀ h, k * E ≤ h → h ≤ n → findEntry (addChain E n) h = some InitStatus.Completed) := by
  have hE : 1 ≤ E := by
    by_contra hc
    have hE0 : E = 0 := by omega
    subst hE0
    rw [lfe_zero] at hk
    omega
  have hkE : k * E ≤ n := by
    have hx := lfe_mul_le E n
    rw [hk] at hx
    exact hx
  have hkE1 : 1 ≤ k * E := Nat.mul_pos hk1 hE
  refine ⟨?_, ?_, ?_, ?_⟩
  · intro h h1 h2 h3
    rw [addChain_find E n h, hk]
    rw [if_neg ?_]
    intro hcon
    rcases hcon with hc1 | ⟨hc2, hc3⟩ | ⟨hc4, hc5⟩
    · exact h2 hc1
    · exact h3 (by omega)
    · omega
  · rw [addChain_find E n 0, if_pos (Or.inl rfl)]
  · rw [addChain_find E n (k * E - 1), hk]
    rw [if_pos (Or.inr (Or.inl ⟨hk1, by omega⟩))]
  · intro h hge hle
    rw [addChain_find E n h, hk, if_pos (Or.inr (Or.inr ⟨hge, hle⟩))]

/-- Witness for C2: the test trace with E = 5 and six blocks (heights
0..5): heights 1..3 are trimmed, genesis, checkpoint 4 and height 5
remain. -/
theorem C2_trimming_boundary_witness :
    findEntry (addChain 5 5) 1 = none ∧
      findEntry (addChain 5 5) 2 = none ∧
      findEntry (addChain 5 5) 3 = none ∧
      findEntry (addChain 5 5) 0 = some InitStatus.Completed ∧
      findEntry (addChain 5 5) 4 = some InitStatus.Completed ∧
      findEntry (addChain 5 5) 5 = some InitStatus.Completed := by
  have hc := C2_trimming_boundary 5 5 1 (by decide) (by decide)
  exact ⟨hc.1 1 (by decide) (by decide) (by decide),
    hc.1 2 (by decide) (by decide) (by decide),
    hc.1 3 (by decide) (by decide) (by decide),
    hc.2.1, hc.2.2.1, hc.2.2.2 5 (by decide) (by decide)⟩

end UnitE
